import Mathlib

/-!
Shallow embedding of `src/pipecat/pipeline/pipeline.py`.

The file models the `Pipeline` composite: chain construction
(`Pipeline.__init__`), linking (`Pipeline._link_processors`), directional
routing (`Pipeline.process_frame`, `PipelineSource.process_frame`,
`PipelineSink.process_frame`), recursive metrics discovery
(`Pipeline.processors_with_metrics`), the baseline metrics frame
(`Pipeline._send_initial_metrics`) and teardown
(`Pipeline.cleanup` / `Pipeline._cleanup_processors`).

`FrameProcessor`, `BasePipeline` and the frame classes live outside the
source fragment; where their behavior matters it is modelled from the spec
(noted on each definition).
-/

namespace Pipecat

/-- `FrameDirection` from the source: `DOWNSTREAM` is "forward" (toward the
tail/sink), `UPSTREAM` is "backward" (toward the head/source). -/
inductive Dir where
  | downstream
  | upstream
deriving DecidableEq, Repr

/-- A processor in a chain.  `source`/`sink` are the synthetic
`PipelineSource`/`PipelineSink` boundary nodes created by `Pipeline.__init__`;
`leaf` is an ordinary user `FrameProcessor` with its `name` and the result of
`can_generate_metrics()`; `pipeline` is a nested `Pipeline` (a `BasePipeline`)
holding its user-supplied processor list. -/
inductive Proc where
  | source
  | sink
  | leaf (name : String) (canMetrics : Bool)
  | pipeline (procs : List Proc)
deriving Repr

/-- `p.name` of a processor (stable identifier used as the metrics key). -/
def Proc.name : Proc → String
  | .source => "PipelineSource"
  | .sink => "PipelineSink"
  | .leaf n _ => n
  | .pipeline _ => "Pipeline"

/-- `p.can_generate_metrics()`.  Modelled from the spec for boundary and
composite nodes (the `FrameProcessor` base class, outside the fragment,
answers false unless a leaf service overrides it): only a leaf user node can
report metrics-capable. -/
def Proc.canGenerateMetrics : Proc → Bool
  | .leaf _ m => m
  | _ => false

/-- `Pipeline.__init__`: `self._processors = [self._source] + processors +
[self._sink]`. -/
def chain (procs : List Proc) : List Proc :=
  Proc.source :: (procs ++ [Proc.sink])

/-- The loop body of `Pipeline._link_processors`: given `prev` and the
remaining processors, emit one `prev.link(curr)` call per iteration. -/
def linkCallsGo (prev : Proc) : List Proc → List (Proc × Proc)
  | [] => []
  | curr :: rest => (prev, curr) :: linkCallsGo curr rest

/-- `Pipeline._link_processors`: `prev = self._processors[0]`, then for each
`curr` in `self._processors[1:]` call `prev.link(curr)`.  Returned as the
ordered list of `link` calls made. -/
def linkCalls : List Proc → List (Proc × Proc)
  | [] => []
  | p :: rest => linkCallsGo p rest

/-! ### Adjacency established by linking

Python chain nodes are distinct objects even when structurally equal, so a
node is identified by its position in `self._processors`; the `i`-th `link`
call of `_link_processors` is `chain[i].link(chain[i+1])`. -/

/-- Adjacency state of the chain: `fwd i` is the index of node `i`'s forward
(downstream) neighbor, `bwd i` of its backward (upstream) neighbor; `none`
before any link is registered. -/
structure LinkState where
  fwd : Nat → Option Nat
  bwd : Nat → Option Nat

/-- The state of a fresh, unlinked chain. -/
def LinkState.init : LinkState := ⟨fun _ => none, fun _ => none⟩

/-- Modelled from the spec: `prev.link(curr)` "registers bidirectional
adjacency to the given node" — it sets `prev`'s forward neighbor to `curr`
and `curr`'s backward neighbor to `prev`, in one symmetric operation. -/
def LinkState.link (s : LinkState) (a b : Nat) : LinkState where
  fwd i := if i = a then some b else s.fwd i
  bwd i := if i = b then some a else s.bwd i

/-- Apply a list of `link` calls (given as index pairs) in order. -/
def applyLinks : LinkState → List (Nat × Nat) → LinkState
  | s, [] => s
  | s, (a, b) :: rest => applyLinks (s.link a b) rest

/-- The index pairs `(start, start+1), …, (start+k-1, start+k)`. -/
def pairsFrom (start : Nat) : Nat → List (Nat × Nat)
  | 0 => []
  | k + 1 => (start, start + 1) :: pairsFrom (start + 1) k

/-- `Pipeline._link_processors` on a chain of `n` user nodes, viewed through
node indices: the loop makes exactly the calls `link i (i+1)` for
`i = 0, …, n`, left to right. -/
def linkProcessors (n : Nat) : LinkState :=
  applyLinks LinkState.init (pairsFrom 0 (n + 1))

/-! ### Recursive metrics discovery (`Pipeline.processors_with_metrics`) -/

mutual

/-- Termination measure for the nested recursion through nested pipelines. -/
def procWeight : Proc → Nat
  | .source => 1
  | .sink => 1
  | .leaf _ _ => 1
  | .pipeline ps => 5 + listWeight ps

def listWeight : List Proc → Nat
  | [] => 0
  | p :: rest => 1 + procWeight p + listWeight rest

end

theorem listWeight_append (l₁ l₂ : List Proc) :
    listWeight (l₁ ++ l₂) = listWeight l₁ + listWeight l₂ := by
  induction l₁ with
  | nil => simp [listWeight]
  | cons p rest ih => simp [listWeight, ih]; omega

theorem listWeight_chain (ps : List Proc) :
    listWeight (chain ps) = listWeight ps + 4 := by
  simp [chain, listWeight, listWeight_append, procWeight]
  omega

mutual

/-- `Pipeline.processors_with_metrics`: iterates `self._processors` (the full
chain, boundary nodes included) accumulating, for each entry, either the
recursive expansion of a nested `BasePipeline` or the entry itself when
`can_generate_metrics()` holds. -/
def processorsWithMetrics (ps : List Proc) : List Proc :=
  metricsLoop (chain ps)
termination_by 5 + listWeight ps
decreasing_by rw [listWeight_chain]; omega

/-- The `for p in self._processors` loop of `processors_with_metrics`:
`isinstance(p, BasePipeline)` → `services += p.processors_with_metrics()`;
`elif p.can_generate_metrics()` → `services.append(p)`. -/
def metricsLoop : List Proc → List Proc
  | [] => []
  | .pipeline qs :: rest => processorsWithMetrics qs ++ metricsLoop rest
  | p :: rest => if p.canGenerateMetrics then p :: metricsLoop rest else metricsLoop rest
termination_by l => listWeight l
decreasing_by
  all_goals simp [listWeight, procWeight]
  all_goals omega

end

/-- Written from the spec's words, for comparison with
`processorsWithMetrics` (refinement): "an ordered sequence of every node in
the chain (excluding boundary nodes) that either (a) reports metrics-capable
= true directly, or (b) is itself a Composite, in which case its own
`metricsCapableDescendants()` is recursively expanded in place (depth-first,
left-to-right, flattened)" — stated over the user-node list. -/
def specMetricsCapableDescendants : List Proc → List Proc
  | [] => []
  | .pipeline qs :: rest =>
      specMetricsCapableDescendants qs ++ specMetricsCapableDescendants rest
  | p :: rest =>
      (if p.canGenerateMetrics then [p] else []) ++ specMetricsCapableDescendants rest

/-- A call of `processors_with_metrics` against the pipeline's state: it
returns its result and leaves the chain unchanged (the method only reads
`self._processors`). -/
def callProcessorsWithMetrics (st : List Proc) : List Proc × List Proc :=
  (processorsWithMetrics st, st)

/-! ### The baseline metrics mapping (`Pipeline._send_initial_metrics`) -/

/-- Python `dict` insertion of key `k` with value `v`: an existing entry for
`k` is overwritten in place (its position kept), otherwise the entry is
appended at the end. -/
def dictInsert (d : List (String × Nat)) (k : String) (v : Nat) :
    List (String × Nat) :=
  if d.any (fun kv => kv.1 == k) then
    d.map (fun kv => if kv.1 == k then (k, v) else kv)
  else d ++ [(k, v)]

/-- Python `dict(pairs)`: insert the pairs left to right. -/
def dictOfPairs (pairs : List (String × Nat)) : List (String × Nat) :=
  pairs.foldl (fun d kv => dictInsert d kv.1 kv.2) []

/-- The `ttfb` mapping built by `Pipeline._send_initial_metrics`:
`dict(zip([p.name for p in processors], [0] * len(processors)))` with
`processors = self.processors_with_metrics()`. -/
def initialTtfb (ps : List Proc) : List (String × Nat) :=
  dictOfPairs
    (((processorsWithMetrics ps).map Proc.name).zip
      (List.replicate (processorsWithMetrics ps).length 0))

/-! ### Directional routing as an event trace -/

/-- Which frame an event belongs to: the externally submitted frame, or the
baseline `MetricsFrame` synthesized by `_send_initial_metrics`. -/
inductive Tag where
  | external
  | baseline
deriving DecidableEq, Repr

/-- Observable events of a traversal: `observe t i` — the chain node at
index `i` runs `process_frame` on the frame tagged `t`; `exitChain t d` —
that frame leaves the chain through a boundary node's bridging callback in
direction `d`. -/
inductive Event where
  | observe (t : Tag) (i : Nat)
  | exitChain (t : Tag) (d : Dir)
deriving DecidableEq, Repr

/-- One routing hop: `push_frame` forwards the frame to the forward
(DOWNSTREAM) or backward (UPSTREAM) neighbor registered by `link`.
Modelled from the spec ("forward frame to the next node in the chain"). -/
def LinkState.step (s : LinkState) : Dir → Nat → Option Nat
  | .downstream, i => s.fwd i
  | .upstream, i => s.bwd i

/-- Traversal of a frame tagged `t` in direction `d`, starting at chain
index `i`, over a chain of `n` user nodes linked as `s`.  The node observes
the frame; then `PipelineSource.process_frame` (index 0) hands an UPSTREAM
frame to the parent through its callback, `PipelineSink.process_frame`
(index `n+1`) hands a DOWNSTREAM frame to the parent through its callback
(both from the source), and every other case pushes the frame to the
neighbor in the travelling direction (modelled from the spec).  `fuel`
bounds the hop count; the chain is finite so `n+2` suffices. -/
def nodeTrace (s : LinkState) (n : Nat) (t : Tag) (d : Dir) :
    Nat → Nat → List Event
  | _, 0 => []
  | i, fuel + 1 =>
    Event.observe t i ::
      (if d = Dir.upstream ∧ i = 0 then [Event.exitChain t Dir.upstream]
       else if d = Dir.downstream ∧ i = n + 1 then
         [Event.exitChain t Dir.downstream]
       else
         match s.step d i with
         | none => []
         | some j => nodeTrace s n t d j fuel)

/-- Routing part of `Pipeline._send_initial_metrics`: the baseline
`MetricsFrame` is dispatched by
`await self._source.process_frame(frame, FrameDirection.DOWNSTREAM)` —
injected at chain index 0, travelling downstream. -/
def sendInitialMetricsTrace (n : Nat) : List Event :=
  nodeTrace (linkProcessors n) n Tag.baseline Dir.downstream 0 (n + 2)

/-- `Pipeline.process_frame` on a chain of `n` user nodes, as an event
trace: if the frame is a `StartFrame` and `self.metrics_enabled` holds,
`_send_initial_metrics` is awaited to completion first; then the frame is
delegated to `self._source` (DOWNSTREAM) or `self._sink` (UPSTREAM). -/
def pipelineProcessFrame (n : Nat) (isStart metricsEnabled : Bool) (d : Dir) :
    List Event :=
  (if isStart && metricsEnabled then sendInitialMetricsTrace n else []) ++
    (if d = Dir.downstream then
       nodeTrace (linkProcessors n) n Tag.external Dir.downstream 0 (n + 2)
     else
       nodeTrace (linkProcessors n) n Tag.external Dir.upstream (n + 1) (n + 2))

/-- The chain indices observing the frame tagged `t`, in trace order. -/
def observedIndices (t : Tag) (tr : List Event) : List Nat :=
  tr.filterMap (fun e =>
    match e with
    | Event.observe t' i => if t' = t then some i else none
    | Event.exitChain _ _ => none)

/-- Whether an event belongs to the frame tagged `t`. -/
def Event.hasTag (t : Tag) : Event → Bool
  | .observe t' _ => t' = t
  | .exitChain t' _ => t' = t

/-! ### Teardown (`Pipeline.cleanup` / `Pipeline._cleanup_processors`) -/

/-- `Pipeline._cleanup_processors`: `for p in self._processors: await
p.cleanup()`.  `fails p` models the outcome of `p.cleanup()` (`some e` = the
call raises `e`).  Returns the processors whose `cleanup` was invoked, in
call order, together with the exception that propagated (the loop body has
no try/except, so a raise aborts the loop). -/
def cleanupProcessors (fails : Proc → Option String) :
    List Proc → List Proc × Option String
  | [] => ([], none)
  | p :: rest =>
    match fails p with
    | some e => ([p], some e)
    | none =>
      let r := cleanupProcessors fails rest
      (p :: r.1, r.2)

/-- `Pipeline.cleanup`: `await self._cleanup_processors()`, over the full
chain. -/
def pipelineCleanup (fails : Proc → Option String) (ps : List Proc) :
    List Proc × Option String :=
  cleanupProcessors fails (chain ps)

/-! ## Helper lemmas -/

theorem chain_length (procs : List Proc) :
    (chain procs).length = procs.length + 2 := by
  simp [chain]

theorem linkCallsGo_eq_zip (prev : Proc) (l : List Proc) :
    linkCallsGo prev l = (prev :: l).zip l := by
  induction l generalizing prev with
  | nil => rfl
  | cons c rest ih => simp [linkCallsGo, ih]

theorem linkCalls_chain_eq_zip (procs : List Proc) :
    linkCalls (chain procs) = (chain procs).zip ((chain procs).drop 1) := by
  simp [chain, linkCalls, linkCallsGo_eq_zip]

/-- The `i`-th link call of `_link_processors` is on the chain nodes at
positions `i` and `i+1`: the calls are exactly the consecutive position
pairs, left to right. -/
theorem linkCalls_chain_eq_pairsFrom_map (procs : List Proc) :
    linkCalls (chain procs) =
      (pairsFrom 0 (procs.length + 1)).map
        (fun ab => ((chain procs).getD ab.1 Proc.source,
                    (chain procs).getD ab.2 Proc.source)) := by
  have go : ∀ (l : List Proc) (p : Proc) (start : Nat) (pre : List Proc),
      pre.length = start →
      linkCallsGo p l =
        (pairsFrom start l.length).map
          (fun ab => ((pre ++ p :: l).getD ab.1 Proc.source,
                      (pre ++ p :: l).getD ab.2 Proc.source)) := by
    intro l
    induction l with
    | nil => intro p start pre _; rfl
    | cons c rest ih =>
      intro p start pre hpre
      have h1 : (pre ++ p :: c :: rest).getD start Proc.source = p := by
        rw [List.getD_append_right _ _ _ _ (le_of_eq hpre)]
        simp [hpre]
      have h2 : (pre ++ p :: c :: rest).getD (start + 1) Proc.source = c := by
        rw [List.getD_append_right _ _ _ _ (by omega)]
        have hs : start + 1 - pre.length = 1 := by omega
        simp [hs]
      have ihs := ih c (start + 1) (pre ++ [p]) (by simp [hpre])
      simp only [List.append_assoc, List.singleton_append] at ihs
      show (p, c) :: linkCallsGo c rest = _
      rw [ihs, List.length_cons, pairsFrom]
      simp only [List.map_cons]
      rw [h1, h2]
  have := go (procs ++ [Proc.sink]) Proc.source 0 [] rfl
  simpa [chain, linkCalls] using this

theorem applyLinks_pairsFrom_fwd (s : LinkState) (start k i : Nat) :
    (applyLinks s (pairsFrom start k)).fwd i =
      if start ≤ i ∧ i < start + k then some (i + 1) else s.fwd i := by
  induction k generalizing s start with
  | zero => rw [pairsFrom, applyLinks, if_neg (by omega)]
  | succ k ih =>
    rw [pairsFrom, applyLinks, ih]
    by_cases hr : start + 1 ≤ i ∧ i < start + 1 + k
    · rw [if_pos hr, if_pos (by omega)]
    · rw [if_neg hr]
      simp only [LinkState.link]
      by_cases hi : i = start
      · subst hi
        rw [if_pos rfl, if_pos (by omega)]
      · rw [if_neg hi, if_neg (by omega)]

theorem applyLinks_pairsFrom_bwd (s : LinkState) (start k i : Nat) :
    (applyLinks s (pairsFrom start k)).bwd i =
      if start + 1 ≤ i ∧ i < start + k + 1 then some (i - 1) else s.bwd i := by
  induction k generalizing s start with
  | zero => rw [pairsFrom, applyLinks, if_neg (by omega)]
  | succ k ih =>
    rw [pairsFrom, applyLinks, ih]
    by_cases hr : start + 1 + 1 ≤ i ∧ i < start + 1 + k + 1
    · rw [if_pos hr, if_pos (by omega)]
    · rw [if_neg hr]
      simp only [LinkState.link]
      by_cases hi : i = start + 1
      · subst hi
        rw [if_pos rfl, if_pos (by omega)]
        simp
      · rw [if_neg hi, if_neg (by omega)]

/-- After `_link_processors` on a chain of `n` user nodes: node `i`'s forward
neighbor is `i+1` exactly for `i ≤ n` (the sink, at `n+1`, has none). -/
theorem linkProcessors_fwd (n i : Nat) :
    (linkProcessors n).fwd i = if i < n + 1 then some (i + 1) else none := by
  rw [linkProcessors, applyLinks_pairsFrom_fwd]
  by_cases h : i < n + 1
  · rw [if_pos (by omega), if_pos h]
  · rw [if_neg (by omega), if_neg h]
    rfl

/-- After `_link_processors`: node `i`'s backward neighbor is `i-1` exactly
for `1 ≤ i ≤ n+1` (the source, at `0`, has none). -/
theorem linkProcessors_bwd (n i : Nat) :
    (linkProcessors n).bwd i =
      if 1 ≤ i ∧ i < n + 2 then some (i - 1) else none := by
  rw [linkProcessors, applyLinks_pairsFrom_bwd]
  by_cases h : 1 ≤ i ∧ i < n + 2
  · rw [if_pos (by omega), if_pos h]
  · rw [if_neg (by omega), if_neg h]
    rfl

/-! ### Traversal lemmas -/

theorem nodeTrace_downstream (n : Nat) (t : Tag) (k : Nat) :
    ∀ i, i + k = n + 1 →
      nodeTrace (linkProcessors n) n t Dir.downstream i (k + 1) =
        (List.range' i (k + 1)).map (Event.observe t) ++
          [Event.exitChain t Dir.downstream] := by
  induction k with
  | zero =>
    intro i hi
    have hi' : i = n + 1 := by omega
    subst hi'
    rw [nodeTrace]
    rw [if_neg (by simp), if_pos (by simp)]
    simp [List.range']
  | succ k ih =>
    intro i hi
    rw [nodeTrace]
    rw [if_neg (by simp), if_neg (by simp; omega)]
    have hstep : (linkProcessors n).step Dir.downstream i = some (i + 1) := by
      show (linkProcessors n).fwd i = some (i + 1)
      rw [linkProcessors_fwd, if_pos (by omega)]
    rw [hstep]
    show Event.observe t i ::
        nodeTrace (linkProcessors n) n t Dir.downstream (i + 1) (k + 1) = _
    rw [ih (i + 1) (by omega)]
    simp [List.range'_succ]

theorem nodeTrace_upstream (n : Nat) (t : Tag) :
    ∀ i, i ≤ n + 1 →
      nodeTrace (linkProcessors n) n t Dir.upstream i (i + 1) =
        ((List.range' 0 (i + 1)).reverse).map (Event.observe t) ++
          [Event.exitChain t Dir.upstream] := by
  intro i
  induction i with
  | zero =>
    intro _
    rw [nodeTrace]
    rw [if_pos (by simp)]
    simp [List.range']
  | succ i ih =>
    intro hi
    rw [nodeTrace]
    rw [if_neg (by simp), if_neg (by simp)]
    have hstep : (linkProcessors n).step Dir.upstream (i + 1) = some i := by
      show (linkProcessors n).bwd (i + 1) = some i
      rw [linkProcessors_bwd, if_pos (by omega)]
      simp
    rw [hstep]
    show Event.observe t (i + 1) ::
        nodeTrace (linkProcessors n) n t Dir.upstream i (i + 1) = _
    rw [ih (by omega)]
    rw [List.range'_1_concat 0 (i + 1)]
    simp

theorem observedIndices_append (t : Tag) (tr₁ tr₂ : List Event) :
    observedIndices t (tr₁ ++ tr₂) =
      observedIndices t tr₁ ++ observedIndices t tr₂ := by
  simp [observedIndices]

theorem observedIndices_map_observe (t : Tag) (l : List Nat) :
    observedIndices t (l.map (Event.observe t)) = l := by
  induction l with
  | nil => rfl
  | cons i rest ih => simp [observedIndices] at ih ⊢; exact ih

theorem observedIndices_sendInitialMetricsTrace (n : Nat) :
    observedIndices Tag.baseline (sendInitialMetricsTrace n) =
      List.range (n + 2) := by
  rw [sendInitialMetricsTrace, nodeTrace_downstream n Tag.baseline (n + 1) 0 (by omega)]
  rw [observedIndices_append, observedIndices_map_observe]
  simp [observedIndices, List.range_eq_range']

/-! ### Metrics discovery lemmas -/

theorem procWeight_pos (p : Proc) : 1 ≤ procWeight p := by
  cases p <;> rw [procWeight]
  omega

theorem metricsLoop_nil : metricsLoop [] = [] := by
  rw [metricsLoop]

theorem metricsLoop_cons_pipeline (qs rest : List Proc) :
    metricsLoop (Proc.pipeline qs :: rest) =
      processorsWithMetrics qs ++ metricsLoop rest := by
  rw [metricsLoop]

theorem metricsLoop_cons_source (rest : List Proc) :
    metricsLoop (Proc.source :: rest) = metricsLoop rest := by
  rw [metricsLoop]
  · simp [Proc.canGenerateMetrics]
  · intro qs h
    cases h

theorem metricsLoop_cons_sink (rest : List Proc) :
    metricsLoop (Proc.sink :: rest) = metricsLoop rest := by
  rw [metricsLoop]
  · simp [Proc.canGenerateMetrics]
  · intro qs h
    cases h

theorem metricsLoop_cons_leaf (nm : String) (m : Bool) (rest : List Proc) :
    metricsLoop (Proc.leaf nm m :: rest) =
      (if m then [Proc.leaf nm m] else []) ++ metricsLoop rest := by
  rw [metricsLoop]
  · by_cases hm : m <;> simp [Proc.canGenerateMetrics, hm]
  · intro qs h
    cases h

theorem specDescendants_nil : specMetricsCapableDescendants [] = [] := by
  rw [specMetricsCapableDescendants]

theorem specDescendants_cons_pipeline (qs rest : List Proc) :
    specMetricsCapableDescendants (Proc.pipeline qs :: rest) =
      specMetricsCapableDescendants qs ++ specMetricsCapableDescendants rest := by
  rw [specMetricsCapableDescendants]

theorem specDescendants_cons_source (rest : List Proc) :
    specMetricsCapableDescendants (Proc.source :: rest) =
      specMetricsCapableDescendants rest := by
  rw [specMetricsCapableDescendants]
  · simp [Proc.canGenerateMetrics]
  · intro qs h
    cases h

theorem specDescendants_cons_sink (rest : List Proc) :
    specMetricsCapableDescendants (Proc.sink :: rest) =
      specMetricsCapableDescendants rest := by
  rw [specMetricsCapableDescendants]
  · simp [Proc.canGenerateMetrics]
  · intro qs h
    cases h

theorem specDescendants_cons_leaf (nm : String) (m : Bool) (rest : List Proc) :
    specMetricsCapableDescendants (Proc.leaf nm m :: rest) =
      (if m then [Proc.leaf nm m] else []) ++
        specMetricsCapableDescendants rest := by
  rw [specMetricsCapableDescendants]
  · by_cases hm : m <;> simp [Proc.canGenerateMetrics, hm]
  · intro qs h
    cases h

theorem metricsLoop_append (l₁ l₂ : List Proc) :
    metricsLoop (l₁ ++ l₂) = metricsLoop l₁ ++ metricsLoop l₂ := by
  induction l₁ with
  | nil => simp [metricsLoop_nil]
  | cons p rest ih =>
    cases p with
    | source => simp [metricsLoop_cons_source, ih]
    | sink => simp [metricsLoop_cons_sink, ih]
    | leaf nm m => simp [metricsLoop_cons_leaf, ih]
    | pipeline qs => simp [metricsLoop_cons_pipeline, ih]

/-- The boundary nodes added by `chain` contribute nothing to the metrics
scan: scanning the chain equals scanning the user nodes. -/
theorem metricsLoop_chain (ps : List Proc) :
    metricsLoop (chain ps) = metricsLoop ps := by
  rw [chain]
  rw [metricsLoop_cons_source (ps ++ [Proc.sink])]
  rw [metricsLoop_append, metricsLoop_cons_sink, metricsLoop_nil]
  simp

theorem metricsLoop_eq_spec_le (w : Nat) :
    ∀ l : List Proc, listWeight l ≤ w →
      metricsLoop l = specMetricsCapableDescendants l := by
  induction w with
  | zero =>
    intro l h
    cases l with
    | nil => rw [metricsLoop_nil, specDescendants_nil]
    | cons p rest =>
      exfalso
      have hp := procWeight_pos p
      rw [listWeight] at h
      omega
  | succ w ih =>
    intro l h
    cases l with
    | nil => rw [metricsLoop_nil, specDescendants_nil]
    | cons p rest =>
      rw [listWeight] at h
      cases p with
      | source =>
        rw [metricsLoop_cons_source, specDescendants_cons_source,
          ih rest (by rw [procWeight] at h; omega)]
      | sink =>
        rw [metricsLoop_cons_sink, specDescendants_cons_sink,
          ih rest (by rw [procWeight] at h; omega)]
      | leaf nm m =>
        rw [metricsLoop_cons_leaf, specDescendants_cons_leaf,
          ih rest (by rw [procWeight] at h; omega)]
      | pipeline qs =>
        rw [procWeight] at h
        rw [metricsLoop_cons_pipeline, specDescendants_cons_pipeline]
        rw [processorsWithMetrics, metricsLoop_chain]
        rw [ih qs (by omega), ih rest (by omega)]

/-- `processors_with_metrics` computes exactly the spec's
`metricsCapableDescendants()`. -/
theorem processorsWithMetrics_eq_specAux (ps : List Proc) :
    processorsWithMetrics ps = specMetricsCapableDescendants ps := by
  rw [processorsWithMetrics, metricsLoop_chain]
  exact metricsLoop_eq_spec_le (listWeight ps) ps le_rfl

/-! ### Dict lemmas (Python `dict` semantics) -/

theorem dictInsert_any_iff (d : List (String × Nat)) (k : String) :
    d.any (fun kv => kv.1 == k) = true ↔ k ∈ d.map Prod.fst := by
  rw [List.any_eq_true]
  constructor
  · rintro ⟨kv, hkv, hb⟩
    rw [beq_iff_eq] at hb
    exact hb ▸ List.mem_map_of_mem Prod.fst hkv
  · intro hk
    rcases List.mem_map.mp hk with ⟨kv, hkv, hfst⟩
    exact ⟨kv, hkv, by rw [beq_iff_eq, hfst]⟩

theorem dictInsert_fst_of_mem (d : List (String × Nat)) (k : String) (v : Nat)
    (h : k ∈ d.map Prod.fst) :
    (dictInsert d k v).map Prod.fst = d.map Prod.fst := by
  rw [dictInsert, if_pos ((dictInsert_any_iff d k).mpr h)]
  rw [List.map_map]
  apply List.map_congr_left
  intro kv _
  by_cases hk : kv.1 == k
  · simp only [Function.comp_apply, if_pos hk]
    rw [beq_iff_eq] at hk
    exact hk.symm
  · simp only [Function.comp_apply, if_neg hk]

theorem dictInsert_fst_of_not_mem (d : List (String × Nat)) (k : String)
    (v : Nat) (h : k ∉ d.map Prod.fst) :
    (dictInsert d k v).map Prod.fst = d.map Prod.fst ++ [k] := by
  rw [dictInsert, if_neg]
  · simp
  · intro hc
    exact h ((dictInsert_any_iff d k).mp hc)

theorem dictInsert_fst_mem_iff (d : List (String × Nat)) (k : String) (v : Nat)
    (k' : String) :
    k' ∈ (dictInsert d k v).map Prod.fst ↔ k' ∈ d.map Prod.fst ∨ k' = k := by
  by_cases h : k ∈ d.map Prod.fst
  · rw [dictInsert_fst_of_mem d k v h]
    constructor
    · exact Or.inl
    · rintro (hk | rfl)
      · exact hk
      · exact h
  · rw [dictInsert_fst_of_not_mem d k v h]
    simp

theorem dictInsert_fst_nodup (d : List (String × Nat)) (k : String) (v : Nat)
    (h : (d.map Prod.fst).Nodup) : ((dictInsert d k v).map Prod.fst).Nodup := by
  by_cases hk : k ∈ d.map Prod.fst
  · rw [dictInsert_fst_of_mem d k v hk]
    exact h
  · rw [dictInsert_fst_of_not_mem d k v hk]
    simp [List.nodup_append, h, hk]

theorem dictInsert_snd (d : List (String × Nat)) (k : String) (v : Nat) :
    ∀ kv ∈ dictInsert d k v, kv.2 = v ∨ kv ∈ d := by
  intro kv hkv
  rw [dictInsert] at hkv
  by_cases hc : d.any (fun kv => kv.1 == k) = true
  · rw [if_pos hc] at hkv
    rcases List.mem_map.mp hkv with ⟨kv', hkv', heq⟩
    by_cases hk : kv'.1 == k
    · rw [if_pos hk] at heq
      left
      rw [← heq]
    · rw [if_neg hk] at heq
      right
      rw [← heq]
      exact hkv'
  · rw [if_neg hc] at hkv
    rcases List.mem_append.mp hkv with hkv' | hkv'
    · exact Or.inr hkv'
    · left
      rw [List.mem_singleton.mp hkv']

theorem dictOfPairs_foldl (pairs : List (String × Nat)) :
    ∀ d : List (String × Nat),
      ((d.map Prod.fst).Nodup →
        ((pairs.foldl (fun d kv => dictInsert d kv.1 kv.2) d).map
          Prod.fst).Nodup) ∧
      (∀ k, k ∈ (pairs.foldl (fun d kv => dictInsert d kv.1 kv.2) d).map
          Prod.fst ↔ k ∈ d.map Prod.fst ∨ k ∈ pairs.map Prod.fst) ∧
      (∀ kv ∈ pairs.foldl (fun d kv => dictInsert d kv.1 kv.2) d,
        kv ∈ d ∨ ∃ p ∈ pairs, kv.2 = p.2) := by
  induction pairs with
  | nil =>
    intro d
    refine ⟨fun h => h, fun k => by simp, fun kv hkv => Or.inl hkv⟩
  | cons q rest ih =>
    intro d
    refine ⟨fun h => ((ih (dictInsert d q.1 q.2)).1
      (dictInsert_fst_nodup d q.1 q.2 h)), fun k => ?_, fun kv hkv => ?_⟩
    · rw [List.foldl_cons, (ih (dictInsert d q.1 q.2)).2.1 k,
        dictInsert_fst_mem_iff]
      simp only [List.map_cons, List.mem_cons]
      tauto
    · rw [List.foldl_cons] at hkv
      rcases (ih (dictInsert d q.1 q.2)).2.2 kv hkv with hd | ⟨p, hp, hv⟩
      · rcases dictInsert_snd d q.1 q.2 kv hd with hv | hd'
        · exact Or.inr ⟨q, List.mem_cons_self q rest, hv⟩
        · exact Or.inl hd'
      · exact Or.inr ⟨p, List.mem_cons_of_mem q hp, hv⟩

theorem dictOfPairs_fst_nodup (pairs : List (String × Nat)) :
    ((dictOfPairs pairs).map Prod.fst).Nodup :=
  (dictOfPairs_foldl pairs []).1 (by simp)

theorem dictOfPairs_fst_mem_iff (pairs : List (String × Nat)) (k : String) :
    k ∈ (dictOfPairs pairs).map Prod.fst ↔ k ∈ pairs.map Prod.fst := by
  rw [dictOfPairs, (dictOfPairs_foldl pairs []).2.1 k]
  simp

theorem dictOfPairs_snd (pairs : List (String × Nat)) :
    ∀ kv ∈ dictOfPairs pairs, ∃ p ∈ pairs, kv.2 = p.2 := by
  intro kv hkv
  rcases (dictOfPairs_foldl pairs []).2.2 kv hkv with hd | h
  · simp at hd
  · exact h

theorem zip_names_replicate (l : List Proc) :
    (l.map Proc.name).zip (List.replicate l.length 0) =
      l.map (fun p => (p.name, 0)) := by
  induction l with
  | nil => rfl
  | cons a rest ih => simp [List.replicate, ih]

theorem initialTtfb_fst_mem_iff (ps : List Proc) (k : String) :
    k ∈ (initialTtfb ps).map Prod.fst ↔
      k ∈ (processorsWithMetrics ps).map Proc.name := by
  rw [initialTtfb, dictOfPairs_fst_mem_iff, zip_names_replicate]
  simp [List.map_map, Function.comp_def]

theorem initialTtfb_fst_nodup (ps : List Proc) :
    ((initialTtfb ps).map Prod.fst).Nodup :=
  dictOfPairs_fst_nodup _

theorem initialTtfb_snd_zero (ps : List Proc) :
    ∀ kv ∈ initialTtfb ps, kv.2 = 0 := by
  intro kv hkv
  rcases dictOfPairs_snd _ kv hkv with ⟨p, hp, hv⟩
  rw [initialTtfb] at hkv
  rw [zip_names_replicate] at hp
  rcases List.mem_map.mp hp with ⟨q, _, hq⟩
  rw [hv, ← hq]

/-! ### Trace tag lemmas -/

theorem nodeTrace_hasTag (s : LinkState) (n : Nat) (t : Tag) (d : Dir) :
    ∀ (fuel i : Nat), ∀ e ∈ nodeTrace s n t d i fuel, e.hasTag t = true := by
  intro fuel
  induction fuel with
  | zero =>
    intro i e he
    rw [nodeTrace] at he
    cases he
  | succ fuel ih =>
    intro i e he
    rw [nodeTrace] at he
    rcases List.mem_cons.mp he with rfl | he'
    · simp [Event.hasTag]
    · split at he'
      · rw [List.mem_singleton.mp he']
        simp [Event.hasTag]
      · split at he'
        · rw [List.mem_singleton.mp he']
          simp [Event.hasTag]
        · split at he'
          · cases he'
          · exact ih _ e he'

theorem observedIndices_of_all_other (t t' : Tag) (h : t ≠ t')
    (tr : List Event) (htr : ∀ e ∈ tr, e.hasTag t = true) :
    observedIndices t' tr = [] := by
  rw [observedIndices, List.filterMap_eq_nil_iff]
  intro e he
  cases e with
  | observe te i =>
    have ht := htr _ he
    simp [Event.hasTag] at ht
    show (if te = t' then some i else none) = none
    rw [ht, if_neg h]
  | exitChain te d => rfl

theorem filter_tag_append_decomp (tr₁ tr₂ : List Event)
    (h₁ : ∀ e ∈ tr₁, e.hasTag Tag.baseline = true)
    (h₂ : ∀ e ∈ tr₂, e.hasTag Tag.external = true) :
    (tr₁ ++ tr₂).filter (Event.hasTag Tag.baseline) ++
      (tr₁ ++ tr₂).filter (Event.hasTag Tag.external) = tr₁ ++ tr₂ := by
  have hb₂ : ∀ e ∈ tr₂, e.hasTag Tag.baseline = false := by
    intro e he
    have := h₂ e he
    cases e with
    | observe te i =>
      simp [Event.hasTag] at this ⊢
      simp [this]
    | exitChain te d =>
      simp [Event.hasTag] at this ⊢
      simp [this]
  have he₁ : ∀ e ∈ tr₁, e.hasTag Tag.external = false := by
    intro e he
    have := h₁ e he
    cases e with
    | observe te i =>
      simp [Event.hasTag] at this ⊢
      simp [this]
    | exitChain te d =>
      simp [Event.hasTag] at this ⊢
      simp [this]
  rw [List.filter_append, List.filter_append]
  rw [List.filter_eq_self.mpr h₁, List.filter_eq_self.mpr h₂]
  rw [List.filter_eq_nil_iff.mpr (by intro e he; simp [hb₂ e he]),
    List.filter_eq_nil_iff.mpr (by intro e he; simp [he₁ e he])]
  simp

/-- Reading a list back through `getD` at positions `0, …, length-1`
reproduces the list. -/
theorem map_getD_range (l : List Proc) (d : Proc) :
    (List.range l.length).map (fun i => l.getD i d) = l := by
  induction l with
  | nil => rfl
  | cons a rest ih =>
    rw [List.length_cons, List.range_succ_eq_map]
    simp only [List.map_cons, List.map_map]
    rw [List.getD_cons_zero]
    have : ((fun i => (a :: rest).getD i d) ∘ Nat.succ) =
        fun i => rest.getD i d := by
      funext i
      simp [List.getD_cons_succ]
    rw [this, ih]

/-! ### Cleanup lemmas -/

theorem cleanupProcessors_no_fail (fails : Proc → Option String) :
    ∀ l : List Proc, (∀ p ∈ l, fails p = none) →
      cleanupProcessors fails l = (l, none) := by
  intro l
  induction l with
  | nil => intro _; rfl
  | cons p rest ih =>
    intro h
    rw [cleanupProcessors]
    rw [h p (List.mem_cons_self p rest)]
    rw [ih (fun q hq => h q (List.mem_cons_of_mem p hq))]

theorem cleanupProcessors_first_fail (fails : Proc → Option String)
    (p : Proc) (l₂ : List Proc) (e : String) (h₂ : fails p = some e) :
    ∀ l₁ : List Proc, (∀ q ∈ l₁, fails q = none) →
      cleanupProcessors fails (l₁ ++ p :: l₂) = (l₁ ++ [p], some e) := by
  intro l₁
  induction l₁ with
  | nil =>
    intro _
    rw [List.nil_append, cleanupProcessors, h₂]
    rfl
  | cons q rest ih =>
    intro h₁
    rw [List.cons_append, cleanupProcessors]
    rw [h₁ q (List.mem_cons_self q rest)]
    rw [ih (fun r hr => h₁ r (List.mem_cons_of_mem q hr))]
    rfl

/-! ### Route observation helpers -/

theorem observedIndices_route (t : Tag) (l : List Nat) (d : Dir) :
    observedIndices t (l.map (Event.observe t) ++ [Event.exitChain t d]) =
      l := by
  rw [observedIndices_append, observedIndices_map_observe]
  simp [observedIndices]

theorem observedIndices_external_downstream (n : Nat) :
    observedIndices Tag.external
      (nodeTrace (linkProcessors n) n Tag.external Dir.downstream 0 (n + 2)) =
      List.range (n + 2) := by
  rw [show n + 2 = (n + 1) + 1 from rfl,
    nodeTrace_downstream n Tag.external (n + 1) 0 (by omega),
    observedIndices_route]
  rw [List.range_eq_range']

theorem observedIndices_external_upstream (n : Nat) :
    observedIndices Tag.external
      (nodeTrace (linkProcessors n) n Tag.external Dir.upstream (n + 1)
        (n + 2)) =
      (List.range (n + 2)).reverse := by
  rw [show n + 2 = (n + 1) + 1 from rfl,
    nodeTrace_upstream n Tag.external (n + 1) (by omega),
    observedIndices_route]
  rw [List.range_eq_range']

theorem sendInitialMetricsTrace_hasTag (n : Nat) :
    ∀ e ∈ sendInitialMetricsTrace n, e.hasTag Tag.baseline = true := by
  rw [sendInitialMetricsTrace]
  exact nodeTrace_hasTag _ _ _ _ _ _

theorem observedIndices_external_baselinePart (n : Nat) (b : Bool) :
    observedIndices Tag.external
      (if b then sendInitialMetricsTrace n else []) = [] := by
  cases b
  · rfl
  · rw [if_pos rfl]
    exact observedIndices_of_all_other Tag.baseline Tag.external (by decide) _
      (sendInitialMetricsTrace_hasTag n)

theorem routeTrace_eq (n : Nat) (d : Dir) :
    (if d = Dir.downstream then
       nodeTrace (linkProcessors n) n Tag.external Dir.downstream 0 (n + 2)
     else
       nodeTrace (linkProcessors n) n Tag.external Dir.upstream (n + 1)
         (n + 2)) =
      nodeTrace (linkProcessors n) n Tag.external d
        (if d = Dir.downstream then 0 else n + 1) (n + 2) := by
  cases d <;> simp

theorem observedIndices_baseline_processFrame (n : Nat) (d : Dir) :
    observedIndices Tag.baseline (pipelineProcessFrame n true true d) =
      List.range (n + 2) := by
  rw [pipelineProcessFrame, observedIndices_append]
  rw [if_pos (show (true && true) = true from rfl),
    observedIndices_sendInitialMetricsTrace]
  have hroute : observedIndices Tag.baseline
      (if d = Dir.downstream then
         nodeTrace (linkProcessors n) n Tag.external Dir.downstream 0 (n + 2)
       else
         nodeTrace (linkProcessors n) n Tag.external Dir.upstream (n + 1)
           (n + 2)) = [] := by
    rw [routeTrace_eq]
    exact observedIndices_of_all_other Tag.external Tag.baseline (by decide) _
      (nodeTrace_hasTag _ _ _ _ _ _)
  rw [hroute]
  simp

/-! ## Claim theorems -/

/-- C1: constructing a `Pipeline` over `n` user nodes builds the chain
`[Boundary-Source] + userNodes + [Boundary-Sink]` of exactly `n + 2`
entries; `_link_processors` calls `link` exactly once per consecutive pair,
in a single left-to-right pass (the `i`-th call is on positions `i`,
`i+1`); afterwards forward and backward adjacency are total on the chain
and consistent in both directions. -/
theorem C1_chain_construction_and_linking (ps : List Proc) :
    (chain ps).length = ps.length + 2 ∧
    chain ps = Proc.source :: (ps ++ [Proc.sink]) ∧
    linkCalls (chain ps) = (chain ps).zip ((chain ps).drop 1) ∧
    (linkCalls (chain ps)).length = ps.length + 1 ∧
    linkCalls (chain ps) =
      (pairsFrom 0 (ps.length + 1)).map
        (fun ab => ((chain ps).getD ab.1 Proc.source,
                    (chain ps).getD ab.2 Proc.source)) ∧
    (∀ i, (linkProcessors ps.length).fwd i =
      if i < ps.length + 1 then some (i + 1) else none) ∧
    (∀ i, (linkProcessors ps.length).bwd i =
      if 1 ≤ i ∧ i < ps.length + 2 then some (i - 1) else none) ∧
    (∀ i j, (linkProcessors ps.length).fwd i = some j ↔
      (linkProcessors ps.length).bwd j = some i) := by
  refine ⟨chain_length ps, rfl, linkCalls_chain_eq_zip ps, ?_,
    linkCalls_chain_eq_pairsFrom_map ps, linkProcessors_fwd ps.length,
    linkProcessors_bwd ps.length, ?_⟩
  · rw [linkCalls_chain_eq_zip, List.length_zip, chain_length,
      List.length_drop, chain_length]
    omega
  · intro i j
    rw [linkProcessors_fwd, linkProcessors_bwd]
    constructor
    · intro h
      by_cases hc : i < ps.length + 1
      · rw [if_pos hc] at h
        injection h with h'
        rw [if_pos (by omega), show j - 1 = i by omega]
      · rw [if_neg hc] at h
        cases h
    · intro h
      by_cases hc : 1 ≤ j ∧ j < ps.length + 2
      · rw [if_pos hc] at h
        injection h with h'
        rw [if_pos (by omega), show i + 1 = j by omega]
      · rw [if_neg hc] at h
        cases h

/-- C2: a frame entering `Pipeline.process_frame` DOWNSTREAM is delegated
to the source boundary and observed by chain positions `0 (Boundary-Source),
1 (node₁), …, n (nodeₙ), n+1 (Boundary-Sink)` in strict order; UPSTREAM is
delegated to the sink boundary and yields the strict reverse order — for
every frame kind and metrics setting.  Reading the positions back through
the chain gives exactly the node sequence and its reverse. -/
theorem C2_traversal_order (ps : List Proc) (isStart metricsEnabled : Bool) :
    observedIndices Tag.external
        (pipelineProcessFrame ps.length isStart metricsEnabled
          Dir.downstream) =
      List.range (ps.length + 2) ∧
    observedIndices Tag.external
        (pipelineProcessFrame ps.length isStart metricsEnabled Dir.upstream) =
      (List.range (ps.length + 2)).reverse ∧
    (List.range (ps.length + 2)).map (fun i => (chain ps).getD i Proc.source) =
      chain ps ∧
    ((List.range (ps.length + 2)).reverse).map
        (fun i => (chain ps).getD i Proc.source) =
      (chain ps).reverse := by
  have hchain : (List.range (ps.length + 2)).map
      (fun i => (chain ps).getD i Proc.source) = chain ps := by
    rw [show ps.length + 2 = (chain ps).length from (chain_length ps).symm]
    exact map_getD_range (chain ps) Proc.source
  refine ⟨?_, ?_, hchain, ?_⟩
  · rw [pipelineProcessFrame, if_pos rfl, observedIndices_append,
      observedIndices_external_baselinePart, observedIndices_external_downstream]
    rfl
  · rw [pipelineProcessFrame, observedIndices_append,
      observedIndices_external_baselinePart,
      if_neg (show ¬(Dir.upstream = Dir.downstream) from by decide),
      observedIndices_external_upstream]
    rfl
  · rw [List.map_reverse, hchain]

/-- C3: `processors_with_metrics` returns exactly the spec's
`metricsCapableDescendants()` — the ordered chain nodes without the two
boundary nodes, metrics-capable nodes included directly and each nested
composite replaced in place by its own recursive expansion, depth-first and
left-to-right. -/
theorem C3_metrics_capable_descendants (ps : List Proc) :
    processorsWithMetrics ps = specMetricsCapableDescendants ps :=
  processorsWithMetrics_eq_specAux ps

/-- C4: the `ttfb` mapping of `_send_initial_metrics` has as keys exactly
the names of the processors returned by `processors_with_metrics`, with
every value `0`; the `MetricsFrame` is injected at the source boundary
(position 0) travelling DOWNSTREAM through the whole chain; on
`{A capable, B not capable, C = nested pipeline with capable D}` the
mapping is exactly `{A: 0, D: 0}`. -/
theorem C4_initial_metrics_mapping (ps : List Proc) :
    (∀ k, k ∈ (initialTtfb ps).map Prod.fst ↔
      k ∈ (processorsWithMetrics ps).map Proc.name) ∧
    (initialTtfb ps).all (fun kv => kv.2 == 0) = true ∧
    (sendInitialMetricsTrace ps.length).head? =
      some (Event.observe Tag.baseline 0) ∧
    observedIndices Tag.baseline (sendInitialMetricsTrace ps.length) =
      List.range (ps.length + 2) ∧
    initialTtfb [Proc.leaf "A" true, Proc.leaf "B" false,
        Proc.pipeline [Proc.leaf "D" true]] =
      [("A", 0), ("D", 0)] := by
  refine ⟨initialTtfb_fst_mem_iff ps, ?_, ?_,
    observedIndices_sendInitialMetricsTrace ps.length, ?_⟩
  · rw [List.all_eq_true]
    intro kv hkv
    rw [beq_iff_eq]
    exact initialTtfb_snd_zero ps kv hkv
  · rw [sendInitialMetricsTrace, show ps.length + 2 = (ps.length + 1) + 1
      from rfl, nodeTrace]
    rfl
  · have h1 : processorsWithMetrics [Proc.leaf "A" true, Proc.leaf "B" false,
        Proc.pipeline [Proc.leaf "D" true]] =
        [Proc.leaf "A" true, Proc.leaf "D" true] := by
      rw [processorsWithMetrics_eq_specAux, specDescendants_cons_leaf,
        specDescendants_cons_leaf, specDescendants_cons_pipeline,
        specDescendants_cons_leaf, specDescendants_nil]
      simp
    rw [initialTtfb, h1]
    rfl

/-- C5: when `process_frame` receives a `StartFrame` with
`metrics_enabled = true`, the whole trace is the complete baseline
dispatch (which traverses all of positions `0 … n+1`) followed by the
Start frame's own routing — every baseline event precedes every event of
the Start frame; with the flag false no baseline event occurs at all. -/
theorem C5_metrics_before_start_routing (n : Nat) (d : Dir) :
    pipelineProcessFrame n true true d =
      sendInitialMetricsTrace n ++ pipelineProcessFrame n true false d ∧
    (pipelineProcessFrame n true true d).filter
        (Event.hasTag Tag.baseline) ++
      (pipelineProcessFrame n true true d).filter
        (Event.hasTag Tag.external) =
      pipelineProcessFrame n true true d ∧
    observedIndices Tag.baseline (pipelineProcessFrame n true true d) =
      List.range (n + 2) ∧
    (∀ isStart : Bool,
      (pipelineProcessFrame n isStart false d).all
        (Event.hasTag Tag.external) = true) := by
  refine ⟨?_, ?_, observedIndices_baseline_processFrame n d, ?_⟩
  · rw [pipelineProcessFrame, pipelineProcessFrame]
    simp
  · rw [pipelineProcessFrame]
    rw [if_pos (show (true && true) = true from rfl)]
    apply filter_tag_append_decomp
    · exact sendInitialMetricsTrace_hasTag n
    · rw [routeTrace_eq]
      exact nodeTrace_hasTag _ _ _ _ _ _
  · intro isStart
    rw [List.all_eq_true]
    intro e he
    rw [pipelineProcessFrame, Bool.and_false, if_neg (by simp),
      List.nil_append, routeTrace_eq] at he
    exact nodeTrace_hasTag _ _ _ _ _ _ e he

/-- C6: with no failing node, `Pipeline.cleanup` invokes `cleanup` on each
of the `n + 2` chain nodes (both boundaries included) exactly once,
sequentially, in construction order from head to tail. -/
theorem C6_teardown_order (ps : List Proc) (fails : Proc → Option String)
    (h : ∀ p ∈ chain ps, fails p = none) :
    pipelineCleanup fails ps = (chain ps, none) ∧
    (chain ps).length = ps.length + 2 :=
  ⟨by rw [pipelineCleanup, cleanupProcessors_no_fail fails (chain ps) h],
    chain_length ps⟩

/-- Witness for C6 at a one-node pipeline with no failures. -/
theorem C6_teardown_order_witness :
    pipelineCleanup (fun _ => none) [Proc.leaf "A" true] =
      (chain [Proc.leaf "A" true], none) ∧
    (chain [Proc.leaf "A" true]).length = 3 := by
  have h := C6_teardown_order [Proc.leaf "A" true] (fun _ => none)
    (fun p _ => rfl)
  exact ⟨h.1, h.2⟩

/-- A concrete failure pattern: `cleanup` raises on the nodes named `B` and
`C` and succeeds everywhere else. -/
def failsBC : Proc → Option String := fun p =>
  if p.name = "B" then some "boomB"
  else if p.name = "C" then some "boomC" else none

/-- C7 counterexample: with user nodes `B` and `C` whose `cleanup` both
raise, the loop stops at `B` — `C` and the sink are never cleaned up
(refuting "teardown is still invoked on every remaining node") and only
the first failure is reported (refuting "all encountered failures are
aggregated"). -/
theorem C7_counterexample :
    pipelineCleanup failsBC [Proc.leaf "B" true, Proc.leaf "C" true] =
      ([Proc.source, Proc.leaf "B" true], some "boomB") ∧
    Proc.sink ∉
      (pipelineCleanup failsBC [Proc.leaf "B" true, Proc.leaf "C" true]).1 ∧
    Proc.leaf "C" true ∉
      (pipelineCleanup failsBC [Proc.leaf "B" true, Proc.leaf "C" true]).1 := by
  have h : pipelineCleanup failsBC [Proc.leaf "B" true, Proc.leaf "C" true] =
      ([Proc.source, Proc.leaf "B" true], some "boomB") := by
    rw [pipelineCleanup]
    rw [show chain [Proc.leaf "B" true, Proc.leaf "C" true] =
      [Proc.source] ++ Proc.leaf "B" true ::
        [Proc.leaf "C" true, Proc.sink] from rfl]
    rw [cleanupProcessors_first_fail failsBC (Proc.leaf "B" true)
      [Proc.leaf "C" true, Proc.sink] "boomB" (by rfl)
      [Proc.source] ?_]
    · rfl
    · intro q hq
      rw [List.mem_singleton] at hq
      subst hq
      rfl
  refine ⟨h, ?_, ?_⟩ <;> rw [h] <;> simp

/-- C7 amended: if a node's `cleanup` raises during teardown, the loop has
invoked `cleanup` on every node up to and including the failing node, in
order; no later node's `cleanup` is invoked, and only that first failure
propagates to the caller. -/
theorem C7_teardown_stops_at_first_failure (fails : Proc → Option String)
    (l₁ : List Proc) (p : Proc) (l₂ : List Proc) (e : String)
    (h₁ : ∀ q ∈ l₁, fails q = none) (h₂ : fails p = some e) :
    cleanupProcessors fails (l₁ ++ p :: l₂) = (l₁ ++ [p], some e) :=
  cleanupProcessors_first_fail fails p l₂ e h₂ l₁ h₁

/-- Witness for the amended C7 on the chain of the counterexample. -/
theorem C7_teardown_stops_at_first_failure_witness :
    cleanupProcessors failsBC
        ([Proc.source] ++ Proc.leaf "B" true ::
          [Proc.leaf "C" true, Proc.sink]) =
      ([Proc.source] ++ [Proc.leaf "B" true], some "boomB") :=
  C7_teardown_stops_at_first_failure failsBC [Proc.source]
    (Proc.leaf "B" true) [Proc.leaf "C" true, Proc.sink] "boomB"
    (by intro q hq; rw [List.mem_singleton] at hq; subst hq; rfl) rfl

/-- C8: `processors_with_metrics` is a pure read of the immutable chain:
a call leaves the processor list unchanged, and a second call on the state
left by the first returns the identical ordered sequence. -/
theorem C8_metrics_discovery_idempotent (st : List Proc) :
    (callProcessorsWithMetrics st).2 = st ∧
    (callProcessorsWithMetrics ((callProcessorsWithMetrics st).2)).1 =
      (callProcessorsWithMetrics st).1 :=
  ⟨rfl, rfl⟩

/-- C9: a `StartFrame` with metrics enabled triggers the baseline
`MetricsFrame` for both entry directions, and the baseline frame is always
injected at Boundary-Source (position 0) travelling DOWNSTREAM — it is
observed at `0, 1, …, n+1` in ascending order even when the Start frame
itself was submitted UPSTREAM via Boundary-Sink. -/
theorem C9_metrics_always_injected_forward_at_source (n : Nat) :
    (∀ d : Dir, observedIndices Tag.baseline
      (pipelineProcessFrame n true true d) = List.range (n + 2)) ∧
    (sendInitialMetricsTrace n).head? =
      some (Event.observe Tag.baseline 0) ∧
    observedIndices Tag.baseline
        (pipelineProcessFrame n true true Dir.upstream) =
      List.range (n + 2) := by
  refine ⟨observedIndices_baseline_processFrame n, ?_,
    observedIndices_baseline_processFrame n Dir.upstream⟩
  rw [sendInitialMetricsTrace, show n + 2 = (n + 1) + 1 from rfl, nodeTrace]
  rfl

/-- C10: the `ttfb` dict keys are distinct, one entry per distinct
descendant identifier (each mapped to 0), so the mapping's size is the
number of distinct identifiers and can be smaller than the number of
descendants: with two capable nodes both named `A` the mapping has one
entry while `processors_with_metrics` returns two nodes. -/
theorem C10_duplicate_identifiers_collapse (ps : List Proc) :
    ((initialTtfb ps).map Prod.fst).Nodup ∧
    (∀ k, k ∈ (initialTtfb ps).map Prod.fst ↔
      k ∈ (processorsWithMetrics ps).map Proc.name) ∧
    (initialTtfb ps).length =
      ((processorsWithMetrics ps).map Proc.name).toFinset.card ∧
    (initialTtfb [Proc.leaf "A" true, Proc.leaf "A" true]).length = 1 ∧
    (processorsWithMetrics [Proc.leaf "A" true, Proc.leaf "A" true]).length
      = 2 ∧
    (initialTtfb [Proc.leaf "A" true, Proc.leaf "A" true]).all
      (fun kv => kv.2 == 0) = true := by
  have hAA : processorsWithMetrics [Proc.leaf "A" true, Proc.leaf "A" true] =
      [Proc.leaf "A" true, Proc.leaf "A" true] := by
    rw [processorsWithMetrics_eq_specAux, specDescendants_cons_leaf,
      specDescendants_cons_leaf, specDescendants_nil]
    simp
  refine ⟨initialTtfb_fst_nodup ps, initialTtfb_fst_mem_iff ps, ?_, ?_, ?_, ?_⟩
  · have hkeys : ((initialTtfb ps).map Prod.fst).toFinset =
        ((processorsWithMetrics ps).map Proc.name).toFinset := by
      apply Finset.ext
      intro k
      rw [List.mem_toFinset, List.mem_toFinset]
      exact initialTtfb_fst_mem_iff ps k
    rw [show (initialTtfb ps).length =
        ((initialTtfb ps).map Prod.fst).length from
        (List.length_map _ _).symm]
    rw [← List.toFinset_card_of_nodup (initialTtfb_fst_nodup ps), hkeys]
  · rw [initialTtfb, hAA]
    rfl
  · rw [hAA]
    rfl
  · rw [initialTtfb, hAA]
    rfl

end Pipecat
